import Mathlib

/-!
Verification of the bank2mqtt synchronization engine.

Shallow embedding of the relevant code:
  * `src/bank2mqtt/client.py` (`PowensClient`): authentication guard,
    `list_transactions`, and the fetch / dedup / sort / yield pipeline of
    `stream_new_transactions`, including its progressive checkpoint-cache
    writes.
  * `src/bank2mqtt/__main__.py` (`stream.run_once`): the per-transaction,
    per-handler dispatch loop with its try/except isolation.
  * `src/bank2mqtt/db.py` (`Bank2MQTTDatabase`): `upsert_transactions`,
    `upsert_accounts`, `upsert_account_balance` and the declared UNIQUE
    constraint on `account_balances.account_id`.

Encoding conventions:
  * Python `None`/missing integer ids are modeled as `0 : Nat` (both are
    falsy in the source's `if transaction_id:` tests); missing dates as the
    empty string (falsy as well).  Cached values are `Option`s: `none` is a
    key absent from the cache (`cache.get` returning `None`).
  * Python compares date strings by code point, lexicographically; `lexLt`
    below reimplements exactly that order on `String.data`.
  * Python's `list.sort` is a stable sort; it is modeled by a stable
    insertion sort (`sortTxs`), which computes the same output list as any
    stable sort for the same key function.
  * The network is an oracle passed explicitly: a list of responses, one
    per request the code issues.  Request logs / attempt counts are
    returned so that theorems can speak about how many calls were made.
-/

namespace Bank2MQTT

/-! ### Python string ordering (code-point lexicographic) -/

/-- Lexicographic code-point comparison of character lists; this is the
order Python uses for `str < str` / `str > str`. -/
def lexLt : List Char → List Char → Bool
  | [], [] => false
  | [], _ :: _ => true
  | _ :: _, [] => false
  | a :: as, b :: bs =>
    if a < b then true
    else if b < a then false
    else lexLt as bs

/-- Python `a < b` on strings. -/
def strLt (a b : String) : Bool := lexLt a.data b.data

/-- Python `a <= b` on strings (total order, so `a <= b ↔ ¬ b < a`). -/
def strLe (a b : String) : Bool := ! strLt b a

/-! ### Client-side data model -/

/-- A transaction as seen by `stream_new_transactions`: only `id` and
`date` are inspected by the pipeline; `payload` stands for every other
field of the JSON object (so that distinct records with equal id/date can
be told apart). -/
structure Tx where
  id : Nat
  date : String
  payload : String
deriving DecidableEq

/-- Python truthiness of an optional integer (`None` and `0` are falsy). -/
def truthyN : Option Nat → Bool
  | none => false
  | some n => n != 0

/-- Python truthiness of an optional string (`None` and `""` are falsy). -/
def truthyS : Option String → Bool
  | none => false
  | some s => s != ""

/-- The checkpoint slice of the persistent `Cache`: the values stored
under `CACHE_KEY_LAST_TRANSACTION_ID` and
`CACHE_KEY_LAST_TRANSACTION_DATE`. -/
structure CacheSt where
  lastId : Option Nat
  lastDate : Option String
deriving DecidableEq

/-- The mutable state of a `PowensClient` that the verified methods read:
its `auth_token` and its checkpoint cache. -/
structure ClientState where
  authToken : Option String
  cache : CacheSt
deriving DecidableEq

/-- Failures of a single HTTP request, as surfaced by `requests`. -/
inductive HttpFailure where
  | timeout
  | connectionError
  | status (code : Nat)
deriving DecidableEq

/-- Python-level exceptions the embedded methods can raise. -/
inductive PyError where
  | runtimeNotAuthenticated
  | valueError
  | requestError (f : HttpFailure)
  | fetchError (f : HttpFailure)
deriving DecidableEq

/-- Network requests issued by the client (used to count / locate calls). -/
inductive Request where
  | tempCode
  | accounts (includeDisabled : Bool)
  | activate (accountId : Nat)
  | transactionsList
  | transactionsPage (n : Nat)
deriving DecidableEq

/-- `PowensClient._ensure_authenticated`: raises `RuntimeError` when
`self.auth_token` is falsy (`None` or empty). -/
def ensure_authenticated (st : ClientState) : Except PyError Unit :=
  if truthyS st.authToken then Except.ok () else Except.error PyError.runtimeNotAuthenticated

/-- How a failed request surfaces from `list_transactions` /
`stream_new_transactions`: only `requests.HTTPError` (a bad status) is
caught and re-raised as an enriched `HTTPError`; timeouts and connection
errors propagate unwrapped. -/
def raiseHttp (f : HttpFailure) : PyError :=
  match f with
  | HttpFailure.status c => PyError.fetchError (HttpFailure.status c)
  | other => PyError.requestError other

/-- `PowensClient.get_temp_code`: auth guard, one GET, then extraction of
the `code` field (raising `ValueError` when absent). -/
def get_temp_code (st : ClientState) (resp : Except HttpFailure (Option String)) :
    Except PyError String × List Request :=
  match ensure_authenticated st with
  | Except.error e => (Except.error e, [])
  | Except.ok _ =>
    match resp with
    | Except.error f => (Except.error (PyError.requestError f), [Request.tempCode])
    | Except.ok none => (Except.error PyError.valueError, [Request.tempCode])
    | Except.ok (some code) => (Except.ok code, [Request.tempCode])

/-- `PowensClient.list_accounts`: auth guard then one GET; the payload is
abstract (`α`). -/
def list_accounts (st : ClientState) (allAccounts : Bool) (resp : Except HttpFailure α) :
    Except PyError α × List Request :=
  match ensure_authenticated st with
  | Except.error e => (Except.error e, [])
  | Except.ok _ =>
    match resp with
    | Except.error f => (Except.error (PyError.requestError f), [Request.accounts allAccounts])
    | Except.ok accounts => (Except.ok accounts, [Request.accounts allAccounts])

/-- `PowensClient.activate_account`: auth guard then one POST. -/
def activate_account (st : ClientState) (accountId : Nat) (resp : Except HttpFailure α) :
    Except PyError α × List Request :=
  match ensure_authenticated st with
  | Except.error e => (Except.error e, [])
  | Except.ok _ =>
    match resp with
    | Except.error f => (Except.error (PyError.requestError f), [Request.activate accountId])
    | Except.ok result => (Except.ok result, [Request.activate accountId])

/-- `PowensClient.list_transactions`: auth guard, then a single GET whose
response is the head of the oracle; an HTTP status error is re-raised as
an enriched `HTTPError`, other request failures propagate unwrapped.  The
second component counts the attempts actually made. -/
def list_transactions (st : ClientState) (oracle : List (Except HttpFailure α)) :
    Except PyError α × Nat :=
  match ensure_authenticated st with
  | Except.error e => (Except.error e, 0)
  | Except.ok _ =>
    match oracle.headD (Except.error HttpFailure.connectionError) with
    | Except.error f => (Except.error (raiseHttp f), 1)
    | Except.ok payload => (Except.ok payload, 1)

/-! ### `stream_new_transactions` pipeline -/

/-- One page of the paginated `/users/me/transactions` endpoint:
its `transactions` array and the cursor parsed from `_links.next.href`
(`none` when there is no next link or no `cursor=` in it). -/
structure PageData where
  transactions : List Tx
  nextCursor : Option String
deriving DecidableEq

/-- The pagination `while` loop of `stream_new_transactions`: issue a GET
per iteration, stop on an empty `transactions` array or a missing cursor,
re-raise HTTP status errors enriched.  Returns the concatenated raw batch
and the number of requests issued.  An exhausted oracle stands for a
server that answers with an empty page. -/
def fetchPages : List (Except HttpFailure PageData) → Except PyError (List Tx) × Nat
  | [] => (Except.ok [], 1)
  | Except.error f :: _ => (Except.error (raiseHttp f), 1)
  | Except.ok p :: rest =>
    if p.transactions.isEmpty then (Except.ok [], 1)
    else
      match p.nextCursor with
      | none => (Except.ok p.transactions, 1)
      | some _ =>
        match fetchPages rest with
        | (Except.ok more, n) => (Except.ok (p.transactions ++ more), n + 1)
        | (Except.error e, n) => (Except.error e, n + 1)

/-- The per-batch filter of the fetch loop, threaded over the concatenated
pages (the `processed_ids` set and the accumulator survive page
boundaries, so filtering the concatenation is the same as filtering page
by page): skip a transaction whose id was already taken, then skip it when
an id checkpoint exists (is truthy) and `id <= last_transaction_id`;
otherwise record the id and keep the transaction. -/
def processBatch (lastId : Option Nat) : List Tx → List Nat → List Tx
  | [], _ => []
  | t :: rest, seen =>
    if t.id ∈ seen then processBatch lastId rest seen
    else if truthyN lastId && decide (t.id ≤ lastId.getD 0) then processBatch lastId rest seen
    else t :: processBatch lastId rest (t.id :: seen)

/-- `sort_key`: the composite `(date, id)` key, compared as Python
compares tuples — date first (code-point lexicographic), id as tiebreak.
`keyLe a b` means `sort_key a <= sort_key b`. -/
def keyLe (a b : Tx) : Bool :=
  strLt a.date b.date || (a.date == b.date && a.id ≤ b.id)

/-- Strict version of `keyLe`: `sort_key a < sort_key b`. -/
def keyLt (a b : Tx) : Bool :=
  strLt a.date b.date || (a.date == b.date && a.id < b.id)

/-- Stable insertion of a transaction in front of the first element it is
`keyLe`-below-or-equal; together with `sortTxs` this computes the output
of Python's stable `list.sort(key=sort_key)`. -/
def insertTx (a : Tx) : List Tx → List Tx
  | [] => [a]
  | b :: bs => if keyLe a b then a :: b :: bs else b :: insertTx a bs

/-- `new_transactions.sort(key=sort_key)` (stable sort by `(date, id)`). -/
def sortTxs : List Tx → List Tx
  | [] => []
  | a :: as => insertTx a (sortTxs as)

/-- The running-maximum update of `current_max_id`:
`if transaction_id and (not current_max_id or transaction_id > current_max_id)`. -/
def nextId (cur : Option Nat) (t : Tx) : Option Nat :=
  if t.id != 0 && (! truthyN cur || decide (cur.getD 0 < t.id)) then some t.id else cur

/-- The running-maximum update of `current_max_date`:
`if transaction_date and (not current_max_date or transaction_date > current_max_date)`. -/
def nextDate (cur : Option String) (t : Tx) : Option String :=
  if t.date != "" && (! truthyS cur || strLt (cur.getD "") t.date) then some t.date else cur

/-- Observable events of the yield loop, in program order: checkpoint
cache writes and transactions handed to the consumer. -/
inductive Ev where
  | writeId (v : Option Nat)
  | writeDate (v : String)
  | yieldTx (t : Tx)
deriving DecidableEq

/-- The final `for transaction in new_transactions` loop: update the two
running maxima, write `current_max_id` to the cache unconditionally, write
`current_max_date` when truthy, then yield the transaction. -/
def yieldLoop (curId : Option Nat) (curDate : Option String) : List Tx → List Ev
  | [] => []
  | t :: rest =>
    let i := nextId curId t
    let d := nextDate curDate t
    Ev.writeId i ::
      ((if truthyS d then [Ev.writeDate (d.getD "")] else []) ++
        (Ev.yieldTx t :: yieldLoop i d rest))

/-- `PowensClient.stream_new_transactions`: auth guard, paginated fetch
with dedup/checkpoint filtering, stable sort by `(date, id)`, then the
yielding loop with its progressive cache writes.  (The `min_date` widening
only alters the request parameters sent to the server, i.e. which pages
the oracle answers with; it does not touch the local pipeline.)  Returns
the event trace and the number of requests issued. -/
def stream_new_transactions (st : ClientState)
    (pages : List (Except HttpFailure PageData)) :
    Except PyError (List Ev) × Nat :=
  match ensure_authenticated st with
  | Except.error e => (Except.error e, 0)
  | Except.ok _ =>
    match fetchPages pages with
    | (Except.error e, n) => (Except.error e, n)
    | (Except.ok raw, n) =>
      let fresh := sortTxs (processBatch st.cache.lastId raw [])
      (Except.ok (yieldLoop st.cache.lastId st.cache.lastDate fresh), n)

/-- Apply one event to the checkpoint cache (yields do not touch it). -/
def applyEv (c : CacheSt) : Ev → CacheSt
  | Ev.writeId v => { c with lastId := v }
  | Ev.writeDate v => { c with lastDate := some v }
  | Ev.yieldTx _ => c

/-- Replay a trace's cache writes. -/
def applyTrace (c : CacheSt) (tr : List Ev) : CacheSt := tr.foldl applyEv c

/-- The transactions a trace delivers to the consumer, in order. -/
def yieldsOf (tr : List Ev) : List Tx :=
  tr.filterMap fun e => match e with | Ev.yieldTx t => some t | _ => none

/-- The successive values written under `last_transaction_id`. -/
def idWritesOf (tr : List Ev) : List (Option Nat) :=
  tr.filterMap fun e => match e with | Ev.writeId v => some v | _ => none

/-- The successive values written under `last_transaction_date`. -/
def dateWritesOf (tr : List Ev) : List String :=
  tr.filterMap fun e => match e with | Ev.writeDate v => some v | _ => none

/-- One authenticated cycle over an already-fetched raw batch: the trace
of the run and the cache it leaves behind. -/
def runCycle (c : CacheSt) (raw : List Tx) : List Ev × CacheSt :=
  let tr := yieldLoop c.lastId c.lastDate (sortTxs (processBatch c.lastId raw []))
  (tr, applyTrace c tr)

/-- A sequence of cycles (successive `stream_new_transactions` calls over
the same cache), each fetching some raw batch. -/
def runCycles (c : CacheSt) : List (List Tx) → List Ev × CacheSt
  | [] => ([], c)
  | raw :: rest =>
    let step := runCycle c raw
    let next := runCycles step.2 rest
    (step.1 ++ next.1, next.2)

/-! ### Notification dispatch (`stream.run_once` in `__main__.py`) -/

/-- The event handed to a handler: the transaction paired with the
account info (opaque here). -/
abbrev Event := Tx × String

/-- A configured handler's `process_transaction`: it either returns or
raises (the error message is opaque). -/
abbrev Handler := Event → Except String Unit

/-- One guarded call `handler.process_transaction(...)` inside
`try/except Exception`: a raised error is caught (and printed), so only a
success flag escapes. -/
def callHandler (h : Handler) (ev : Event) : Bool :=
  match h ev with
  | Except.ok _ => true
  | Except.error _ => false

/-- The inner `for handler in handlers` loop for a single event, logging
`(handler index, outcome)` for every call made. -/
def dispatchEvent : List Handler → Nat → Event → List (Nat × Bool)
  | [], _, _ => []
  | h :: hs, i, ev => (i, callHandler h ev) :: dispatchEvent hs (i + 1) ev

/-- `run_once`'s dispatch: `for transaction in new_transactions: for
handler in handlers: try ... except`.  Returns the full call log in
program order (an empty batch dispatches nothing). -/
def run_once (handlers : List Handler) (accountInfo : String) :
    List Tx → List (Tx × Nat × Bool)
  | [] => []
  | t :: rest =>
    (dispatchEvent handlers 0 (t, accountInfo)).map (fun r => (t, r)) ++
      run_once handlers accountInfo rest

/-- The events that reached the handler at index `j`, in delivery order. -/
def deliveriesTo (j : Nat) (log : List (Tx × Nat × Bool)) : List Tx :=
  log.filterMap fun r => if r.2.1 = j then some r.1 else none

/-! ### Database (`db.py`) -/

/-- A persisted row: the column values actually stored (column name ↦
value; values are opaque strings). -/
abbrev Row := List (String × String)

/-- First-match field lookup in a row. -/
def lookupField : Row → String → Option String
  | [], _ => none
  | (k, v) :: r, key => if k = key then some v else lookupField r key

/-- `setattr` of one column: overwrite the first occurrence in place,
else append the new column. -/
def setField : Row → String → String → Row
  | [], key, val => [(key, val)]
  | (k, v) :: r, key, val =>
    if k = key then (k, val) :: r else (k, v) :: setField r key val

/-- The update branch of an upsert: `for k, v in data.items():
setattr(row, k, v)` (only column attributes are persisted). -/
def mergeRow (r : Row) (p : Row) : Row :=
  p.foldl (fun acc kv => setField acc kv.1 kv.2) r

/-- An incoming payload dict: its `data["id"]` key and its items.  A
Python dict's keys are unique; theorems carry that as a `Nodup`
hypothesis. -/
structure Payload where
  id : Nat
  fields : Row
deriving DecidableEq

/-- A table keyed by the natural id column (`filter_by(id=...)`). -/
abbrev Table := List (Nat × Row)

/-- The insert branch's dict comprehension: keep only keys that are
columns of the model (non-column `setattr`s are not persisted either). -/
def colRestrict (cols : List String) (p : Row) : Row :=
  p.filter fun kv => cols.contains kv.1

/-- One iteration of the upsert loop: query the first row with the
payload's id; update it in place when found, else insert a new row. -/
def upsertOne (cols : List String) : Table → Payload → Table
  | [], p => [(p.id, colRestrict cols p.fields)]
  | (i, r) :: rest, p =>
    if i = p.id then (i, mergeRow r (colRestrict cols p.fields)) :: rest
    else (i, r) :: upsertOne cols rest p

/-- The upsert loop over a batch, inside one session. -/
def upsertMany (cols : List String) (tbl : Table) (batch : List Payload) : Table :=
  batch.foldl (upsertOne cols) tbl

/-- The columns of the `Transaction` model in `db.py`. -/
def transactionColumns : List String :=
  ["id", "id_account", "application_date", "date", "vdate", "rdate", "bdate",
   "value", "type", "original_wording", "simplified_wording", "wording",
   "categories", "date_scraped", "coming", "active", "id_cluster", "comment",
   "last_update", "deleted", "original_value", "original_gross_value",
   "country", "card"]

/-- The columns of the `Account` model in `db.py`. -/
def accountColumns : List String :=
  ["id", "id_connection", "id_user", "id_source", "id_parent", "number",
   "original_name", "balance", "coming", "display", "deleted", "disabled",
   "iban", "type", "id_type", "bookmarked", "name", "error", "usage",
   "ownership", "company_name", "loan"]

/-- `Bank2MQTTDatabase.upsert_transactions`. -/
def upsert_transactions (tbl : Table) (batch : List Payload) : Table :=
  upsertMany transactionColumns tbl batch

/-- `Bank2MQTTDatabase.upsert_accounts`. -/
def upsert_accounts (tbl : Table) (batch : List Payload) : Table :=
  upsertMany accountColumns tbl batch

/-- First-match row lookup by id (`filter_by(id=...).first()`). -/
def lookupTable : Table → Nat → Option Row
  | [], _ => none
  | (i, r) :: rest, key => if i = key then some r else lookupTable rest key

/-- A row of `account_balances` (`last_update` normalized to a
timestamp, as `upsert_account_balance` normalizes its argument). -/
structure BalanceRow where
  account_id : Nat
  balance : Int
  coming_balance : Int
  last_update : Nat
deriving DecidableEq

/-- Database-level errors raised at commit time. -/
inductive DBError where
  | integrityError
deriving DecidableEq

/-- `session.add` + `session.commit` of a new `AccountBalance` row: the
schema declares `account_id` UNIQUE, so committing a second row for the
same account raises `IntegrityError` and the transaction rolls back. -/
def addBalanceRow (rows : List BalanceRow) (r : BalanceRow) :
    Except DBError (List BalanceRow) :=
  if rows.any fun x => x.account_id == r.account_id then Except.error DBError.integrityError
  else Except.ok (rows ++ [r])

/-- `Bank2MQTTDatabase.upsert_account_balance`: query the first row for
`account_id`; when it exists with the same `last_update`, return it with
no write; otherwise add a brand-new row (never updating in place) and
commit. -/
def upsert_account_balance (rows : List BalanceRow) (accountId : Nat)
    (balance comingBalance : Int) (lastUpdate : Nat) :
    Except DBError (List BalanceRow) :=
  match rows.find? (fun x => x.account_id == accountId) with
  | some existing =>
    if existing.last_update = lastUpdate then Except.ok rows
    else addBalanceRow rows ⟨accountId, balance, comingBalance, lastUpdate⟩
  | none => addBalanceRow rows ⟨accountId, balance, comingBalance, lastUpdate⟩

/-! ### Spec-side definitions (for refutation / refinement comparison) -/

/-- Spec-side, from the spec's words: collapse duplicate identifiers
within a batch, keeping the first occurrence. -/
def specDedup : List Tx → List Nat → List Tx
  | [], _ => []
  | t :: r, seen =>
    if t.id ∈ seen then specDedup r seen else t :: specDedup r (t.id :: seen)

/-- Strict lexicographic order on composite `(date, identifier)` keys. -/
def pairLt (a b : String × Nat) : Bool :=
  strLt a.1 b.1 || (a.1 == b.1 && a.2 < b.2)

/-- Spec-side, from the spec's words: the maximum `(date, identifier)`
composite key observed across a batch (`none` on an empty batch). -/
def compositeKeyMax : List Tx → Option (String × Nat)
  | [] => none
  | t :: r =>
    match compositeKeyMax r with
    | none => some (t.date, t.id)
    | some m => some (if pairLt m (t.date, t.id) then (t.date, t.id) else m)

/-- Whether a transient failure should be retried per the spec. -/
def HttpFailure.isTransient : HttpFailure → Bool
  | HttpFailure.timeout => true
  | HttpFailure.connectionError => true
  | HttpFailure.status c => 500 ≤ c

/-- Spec-side, from the spec's words: a bounded retry wrapper making up to
`k` attempts, retrying transient failures (timeouts, 5xx, connection
errors) and failing immediately on anything else.  Returns the result and
the number of attempts made. -/
def retrySpecGo : Nat → List (Except HttpFailure α) → Except PyError α × Nat
  | 0, _ => (Except.error (PyError.requestError HttpFailure.connectionError), 0)
  | Nat.succ k, oracle =>
    match oracle.headD (Except.error HttpFailure.connectionError) with
    | Except.ok a => (Except.ok a, 1)
    | Except.error f =>
      if f.isTransient && k != 0 then
        let r := retrySpecGo k oracle.tail
        (r.1, r.2 + 1)
      else (Except.error (raiseHttp f), 1)

/-- Spec-side: the 3-attempt retry wrapper the spec claims around every
network call. -/
def retrySpec (oracle : List (Except HttpFailure α)) : Except PyError α × Nat :=
  retrySpecGo 3 oracle

/-- Checks a trace for a checkpoint-id write not covered by an earlier
yield: walks the trace keeping the yielded ids, and returns `true` iff
some write stores an id that had not been delivered yet.  Claim C1 states
this never happens (the function returns `false` on every run). -/
def writeBeforeDelivery : List Ev → List Nat → Bool
  | [], _ => false
  | Ev.writeId (some v) :: r, ys => if v ∈ ys then writeBeforeDelivery r ys else true
  | Ev.writeId none :: r, ys => writeBeforeDelivery r ys
  | Ev.writeDate _ :: r, ys => writeBeforeDelivery r ys
  | Ev.yieldTx t :: r, ys => writeBeforeDelivery r (t.id :: ys)

/-- Is the event at position `i` of the trace a cache write? -/
def writeAt (tr : List Ev) (i : Nat) : Bool :=
  match tr.get? i with
  | some (Ev.writeId _) => true
  | some (Ev.writeDate _) => true
  | _ => false

/-- Is the event at position `i` of the trace a yield? -/
def yieldAt (tr : List Ev) (i : Nat) : Bool :=
  match tr.get? i with
  | some (Ev.yieldTx _) => true
  | _ => false

/-- Order on cached optional ids: an absent value is below everything. -/
def optLeN : Option Nat → Option Nat → Prop
  | none, _ => True
  | some _, none => False
  | some a, some b => a ≤ b

/-- Order on cached optional dates (Python string order, absent below
everything). -/
def optLeD : Option String → Option String → Prop
  | none, _ => True
  | some _, none => False
  | some a, some b => strLe a b = true

/-- Decidable equality for `Except` results (kernel-reducible, for
concrete evaluations). -/
def exceptDecEq {e a : Type} [DecidableEq e] [DecidableEq a] :
    (x y : Except e a) → Decidable (x = y)
  | Except.ok v, Except.ok w =>
    if h : v = w then Decidable.isTrue (by rw [h]) else Decidable.isFalse (by simp [h])
  | Except.ok _, Except.error _ => Decidable.isFalse (by simp)
  | Except.error _, Except.ok _ => Decidable.isFalse (by simp)
  | Except.error v, Except.error w =>
    if h : v = w then Decidable.isTrue (by rw [h]) else Decidable.isFalse (by simp [h])

instance {e a : Type} [DecidableEq e] [DecidableEq a] : DecidableEq (Except e a) :=
  exceptDecEq

/-! ### Lemmas: the Python string order -/

theorem lexLt_irrefl (l : List Char) : lexLt l l = false := by
  induction l with
  | nil => rfl
  | cons a as ih => simp [lexLt, ih]

theorem lexLt_nil_right (l : List Char) : lexLt l [] = false := by
  cases l <;> rfl

theorem lexLt_trans (a : List Char) :
    ∀ b c, lexLt a b = true → lexLt b c = true → lexLt a c = true := by
  induction a with
  | nil =>
    intro b c h1 h2
    cases b with
    | nil => exact absurd h1 (by simp [lexLt])
    | cons y bs => cases c with
      | nil => exact absurd h2 (by simp [lexLt_nil_right])
      | cons z cs => simp [lexLt]
  | cons x as ih =>
    intro b c h1 h2
    cases b with
    | nil => exact absurd h1 (by simp [lexLt_nil_right])
    | cons y bs =>
      cases c with
      | nil => exact absurd h2 (by simp [lexLt_nil_right])
      | cons z cs =>
        simp only [lexLt] at h1 h2 ⊢
        rcases lt_trichotomy x y with hxy | hxy | hxy
        · rcases lt_trichotomy y z with hyz | hyz | hyz
          · rw [if_pos (lt_trans hxy hyz)]
          · subst hyz; rw [if_pos hxy]
          · rw [if_neg (asymm hyz), if_pos hyz] at h2; exact Bool.noConfusion h2
        · subst hxy
          rcases lt_trichotomy x z with hxz | hxz | hxz
          · rw [if_pos hxz]
          · subst hxz
            rw [if_neg (lt_irrefl x), if_neg (lt_irrefl x)] at h1 h2 ⊢
            exact ih bs cs h1 h2
          · rw [if_neg (asymm hxz), if_pos hxz] at h2; exact Bool.noConfusion h2
        · rw [if_neg (asymm hxy), if_pos hxy] at h1; exact Bool.noConfusion h1

theorem lexLt_connex (a : List Char) :
    ∀ b, lexLt a b = false → lexLt b a = false → a = b := by
  induction a with
  | nil =>
    intro b h1 _
    cases b with
    | nil => rfl
    | cons y bs => simp [lexLt] at h1
  | cons x as ih =>
    intro b h1 h2
    cases b with
    | nil => simp [lexLt] at h2
    | cons y bs =>
      simp only [lexLt] at h1 h2
      rcases lt_trichotomy x y with hxy | hxy | hxy
      · simp [hxy] at h1
      · subst hxy
        simp only [lt_irrefl, if_neg (lt_irrefl x), ite_false] at h1 h2
        exact congrArg (x :: ·) (ih bs h1 h2)
      · simp [hxy, asymm hxy] at h2

theorem string_data_inj (a b : String) (h : a.data = b.data) : a = b := by
  cases a; cases b; simp_all

theorem strLt_irrefl (s : String) : strLt s s = false := lexLt_irrefl s.data

theorem strLt_trans {a b c : String} (h1 : strLt a b = true) (h2 : strLt b c = true) :
    strLt a c = true := lexLt_trans a.data b.data c.data h1 h2

theorem strLt_connex {a b : String} (h1 : strLt a b = false) (h2 : strLt b a = false) :
    a = b := string_data_inj a b (lexLt_connex a.data b.data h1 h2)

theorem strLt_asymm {a b : String} (h : strLt a b = true) : strLt b a = false := by
  cases hba : strLt b a with
  | false => rfl
  | true => exact absurd (strLt_trans h hba) (by simp [strLt_irrefl])

theorem strLe_refl (s : String) : strLe s s = true := by
  simp [strLe, strLt_irrefl]

theorem strLe_of_strLt {a b : String} (h : strLt a b = true) : strLe a b = true := by
  simp [strLe, strLt_asymm h]

theorem strLe_trans {a b c : String} (h1 : strLe a b = true) (h2 : strLe b c = true) :
    strLe a c = true := by
  simp only [strLe, Bool.not_eq_true'] at h1 h2 ⊢
  cases hca : strLt c a with
  | false => rfl
  | true =>
    exfalso
    cases hab : strLt a b with
    | true =>
      have hcb : strLt c b = true := strLt_trans hca hab
      rw [h2] at hcb
      exact Bool.noConfusion hcb
    | false =>
      have hab2 : a = b := strLt_connex hab h1
      subst hab2
      rw [h2] at hca
      exact Bool.noConfusion hca

theorem strLt_nonempty (s : String) (h : s ≠ "") : strLt "" s = true := by
  have hd : s.data ≠ [] := fun hnil => h (string_data_inj s "" (by simpa using hnil))
  cases hs : s.data with
  | nil => exact absurd hs hd
  | cons c cs => simp [strLt, hs, lexLt]

/-! ### Lemmas: the composite sort key -/

theorem keyLe_iff {a b : Tx} :
    keyLe a b = true ↔
      (strLt a.date b.date = true ∨ (a.date = b.date ∧ a.id ≤ b.id)) := by
  simp [keyLe]

theorem keyLt_iff {a b : Tx} :
    keyLt a b = true ↔
      (strLt a.date b.date = true ∨ (a.date = b.date ∧ a.id < b.id)) := by
  simp [keyLt]

theorem keyLe_total (a b : Tx) : keyLe a b = true ∨ keyLe b a = true := by
  cases hab : strLt a.date b.date with
  | true => exact Or.inl (keyLe_iff.mpr (Or.inl hab))
  | false =>
    cases hba : strLt b.date a.date with
    | true => exact Or.inr (keyLe_iff.mpr (Or.inl hba))
    | false =>
      have he : a.date = b.date := strLt_connex hab hba
      rcases Nat.le_total a.id b.id with h | h
      · exact Or.inl (keyLe_iff.mpr (Or.inr ⟨he, h⟩))
      · exact Or.inr (keyLe_iff.mpr (Or.inr ⟨he.symm, h⟩))

theorem keyLe_trans {a b c : Tx} (h1 : keyLe a b = true) (h2 : keyLe b c = true) :
    keyLe a c = true := by
  rcases keyLe_iff.mp h1 with hd1 | ⟨he1, hi1⟩
  · rcases keyLe_iff.mp h2 with hd2 | ⟨he2, _⟩
    · exact keyLe_iff.mpr (Or.inl (strLt_trans hd1 hd2))
    · exact keyLe_iff.mpr (Or.inl (he2 ▸ hd1))
  · rcases keyLe_iff.mp h2 with hd2 | ⟨he2, hi2⟩
    · exact keyLe_iff.mpr (Or.inl (he1 ▸ hd2))
    · exact keyLe_iff.mpr (Or.inr ⟨he1.trans he2, Nat.le_trans hi1 hi2⟩)

theorem keyLt_of_keyLe_of_id_ne {a b : Tx} (h : keyLe a b = true) (hne : a.id ≠ b.id) :
    keyLt a b = true := by
  rcases keyLe_iff.mp h with hd | ⟨he, hi⟩
  · exact keyLt_iff.mpr (Or.inl hd)
  · exact keyLt_iff.mpr (Or.inr ⟨he, Nat.lt_of_le_of_ne hi hne⟩)

/-! ### Lemmas: the stable sort -/

theorem insertTx_perm (a : Tx) (l : List Tx) : (insertTx a l).Perm (a :: l) := by
  induction l with
  | nil => exact List.Perm.refl _
  | cons b bs ih =>
    by_cases h : keyLe a b = true
    · simp [insertTx, h]
    · simp only [insertTx, h, if_neg]
      exact (List.Perm.cons b ih).trans (List.Perm.swap a b bs)

theorem sortTxs_perm (l : List Tx) : (sortTxs l).Perm l := by
  induction l with
  | nil => exact List.Perm.refl _
  | cons a as ih =>
    exact ((insertTx_perm a (sortTxs as)).trans (List.Perm.cons a ih))

theorem mem_insertTx {x a : Tx} {l : List Tx} (h : x ∈ insertTx a l) :
    x = a ∨ x ∈ l := by
  have := (insertTx_perm a l).mem_iff.mp h
  simpa using this

theorem pairwise_insertTx {a : Tx} {l : List Tx}
    (h : l.Pairwise (fun x y => keyLe x y = true)) :
    (insertTx a l).Pairwise (fun x y => keyLe x y = true) := by
  induction l with
  | nil => simp [insertTx]
  | cons b bs ih =>
    rcases List.pairwise_cons.mp h with ⟨hb, hbs⟩
    by_cases hab : keyLe a b = true
    · simp only [insertTx, hab, if_pos]
      refine List.pairwise_cons.mpr ⟨?_, h⟩
      intro x hx
      rcases List.mem_cons.mp hx with rfl | hx
      · exact hab
      · exact keyLe_trans hab (hb x hx)
    · have hba : keyLe b a = true := (keyLe_total a b).resolve_left hab
      simp only [insertTx, hab, if_neg, Bool.not_eq_true]
      refine List.pairwise_cons.mpr ⟨?_, ih hbs⟩
      intro x hx
      rcases mem_insertTx hx with rfl | hx
      · exact hba
      · exact hb x hx

theorem sortTxs_sorted (l : List Tx) :
    (sortTxs l).Pairwise (fun x y => keyLe x y = true) := by
  induction l with
  | nil => simp [sortTxs]
  | cons a as ih => exact pairwise_insertTx ih

/-! ### Lemmas: the dedup / checkpoint filter -/

theorem processBatch_not_mem_seen {cid : Option Nat} :
    ∀ {l : List Tx} {seen : List Nat} {t : Tx},
      t ∈ processBatch cid l seen → t.id ∉ seen := by
  intro l
  induction l with
  | nil => intro seen t h; simp [processBatch] at h
  | cons u rest ih =>
    intro seen t h
    by_cases h1 : u.id ∈ seen
    · rw [processBatch, if_pos h1] at h
      exact ih h
    · rw [processBatch, if_neg h1] at h
      by_cases h2 : (truthyN cid && decide (u.id ≤ cid.getD 0)) = true
      · rw [if_pos h2] at h
        exact ih h
      · rw [if_neg h2] at h
        rcases List.mem_cons.mp h with rfl | h
        · exact h1
        · intro hmem
          exact (ih h) (List.mem_cons_of_mem _ hmem)

theorem processBatch_ids_nodup {cid : Option Nat} :
    ∀ (l : List Tx) (seen : List Nat),
      ((processBatch cid l seen).map Tx.id).Nodup := by
  intro l
  induction l with
  | nil => intro seen; simp [processBatch]
  | cons u rest ih =>
    intro seen
    by_cases h1 : u.id ∈ seen
    · rw [processBatch, if_pos h1]; exact ih seen
    · rw [processBatch, if_neg h1]
      by_cases h2 : (truthyN cid && decide (u.id ≤ cid.getD 0)) = true
      · rw [if_pos h2]; exact ih seen
      · rw [if_neg h2]
        simp only [List.map_cons, List.nodup_cons]
        refine ⟨?_, ih (u.id :: seen)⟩
        intro hmem
        rcases List.mem_map.mp hmem with ⟨t, ht, hid⟩
        exact (processBatch_not_mem_seen ht) (hid ▸ List.mem_cons_self u.id seen)

theorem specDedup_congr_seen :
    ∀ (l : List Tx) (s1 s2 : List Nat), (∀ x, x ∈ s1 ↔ x ∈ s2) →
      specDedup l s1 = specDedup l s2 := by
  intro l
  induction l with
  | nil => intro s1 s2 _; rfl
  | cons t r ih =>
    intro s1 s2 hmem
    by_cases h : t.id ∈ s1
    · rw [specDedup, if_pos h, specDedup, if_pos ((hmem t.id).mp h)]
      exact ih s1 s2 hmem
    · rw [specDedup, if_neg h, specDedup, if_neg (fun hx => h ((hmem t.id).mpr hx))]
      refine congrArg (t :: ·) (ih _ _ ?_)
      intro x
      simp only [List.mem_cons]
      exact or_congr Iff.rfl (hmem x)

theorem specDedup_filter_drop_le {c : Nat} :
    ∀ (l : List Tx) (seen : List Nat) (v : Nat), v ≤ c →
      (specDedup l (v :: seen)).filter (fun t => decide (c < t.id)) =
        (specDedup l seen).filter (fun t => decide (c < t.id)) := by
  intro l
  induction l with
  | nil => intro seen v _; rfl
  | cons t r ih =>
    intro seen v hv
    by_cases h1 : t.id = v
    · subst h1
      rw [specDedup, if_pos (List.mem_cons_self t.id seen)]
      by_cases h2 : t.id ∈ seen
      · rw [specDedup, if_pos h2]
        exact ih seen t.id hv
      · rw [specDedup, if_neg h2, List.filter_cons_of_neg (by simpa using Nat.not_lt.mpr hv)]
    · by_cases h2 : t.id ∈ seen
      · rw [specDedup, if_pos (List.mem_cons_of_mem v h2), specDedup, if_pos h2]
        exact ih seen v hv
      · have hnm : t.id ∉ v :: seen := by
          intro hx
          rcases List.mem_cons.mp hx with hx | hx
          · exact h1 hx
          · exact h2 hx
        rw [specDedup, if_neg hnm, specDedup, if_neg h2]
        by_cases h3 : (c < t.id)
        · rw [List.filter_cons_of_pos (by simpa using h3),
            List.filter_cons_of_pos (by simpa using h3)]
          refine congrArg (t :: ·) ?_
          rw [specDedup_congr_seen r (t.id :: v :: seen) (v :: t.id :: seen)
            (by intro x; simp [List.mem_cons]; tauto)]
          exact ih (t.id :: seen) v hv
        · rw [List.filter_cons_of_neg (by simpa using h3),
            List.filter_cons_of_neg (by simpa using h3)]
          rw [specDedup_congr_seen r (t.id :: v :: seen) (v :: t.id :: seen)
            (by intro x; simp [List.mem_cons]; tauto)]
          exact ih (t.id :: seen) v hv

theorem processBatch_eq_filter_specDedup {c : Nat} (hc : c ≠ 0) :
    ∀ (l : List Tx) (seen : List Nat),
      processBatch (some c) l seen =
        (specDedup l seen).filter (fun t => decide (c < t.id)) := by
  intro l
  induction l with
  | nil => intro seen; rfl
  | cons t r ih =>
    intro seen
    have htru : truthyN (some c) = true := by simp [truthyN, hc]
    by_cases h1 : t.id ∈ seen
    · rw [processBatch, if_pos h1, specDedup, if_pos h1]
      exact ih seen
    · rw [processBatch, if_neg h1, specDedup, if_neg h1]
      by_cases h2 : t.id ≤ c
      · rw [if_pos (by simp [htru, h2]),
          List.filter_cons_of_neg (by simpa using Nat.not_lt.mpr h2)]
        rw [ih seen]
        exact (specDedup_filter_drop_le r seen t.id h2).symm
      · rw [if_neg (by simp [htru]; omega),
          List.filter_cons_of_pos (by simpa using Nat.lt_of_not_le h2)]
        exact congrArg (t :: ·) (ih (t.id :: seen))

/-! ### Lemmas: traces of the yield loop -/

theorem yieldsOf_cons_writeId (v : Option Nat) (tr : List Ev) :
    yieldsOf (Ev.writeId v :: tr) = yieldsOf tr := by
  simp [yieldsOf, List.filterMap_cons]

theorem yieldsOf_cons_writeDate (v : String) (tr : List Ev) :
    yieldsOf (Ev.writeDate v :: tr) = yieldsOf tr := by
  simp [yieldsOf, List.filterMap_cons]

theorem yieldsOf_cons_yield (t : Tx) (tr : List Ev) :
    yieldsOf (Ev.yieldTx t :: tr) = t :: yieldsOf tr := by
  simp [yieldsOf, List.filterMap_cons]

theorem yieldsOf_append (a b : List Ev) :
    yieldsOf (a ++ b) = yieldsOf a ++ yieldsOf b := by
  simp [yieldsOf, List.filterMap_append]

theorem idWritesOf_cons_writeId (v : Option Nat) (tr : List Ev) :
    idWritesOf (Ev.writeId v :: tr) = v :: idWritesOf tr := by
  simp [idWritesOf, List.filterMap_cons]

theorem idWritesOf_cons_writeDate (v : String) (tr : List Ev) :
    idWritesOf (Ev.writeDate v :: tr) = idWritesOf tr := by
  simp [idWritesOf, List.filterMap_cons]

theorem idWritesOf_cons_yield (t : Tx) (tr : List Ev) :
    idWritesOf (Ev.yieldTx t :: tr) = idWritesOf tr := by
  simp [idWritesOf, List.filterMap_cons]

theorem idWritesOf_append (a b : List Ev) :
    idWritesOf (a ++ b) = idWritesOf a ++ idWritesOf b := by
  simp [idWritesOf, List.filterMap_append]

theorem dateWritesOf_cons_writeId (v : Option Nat) (tr : List Ev) :
    dateWritesOf (Ev.writeId v :: tr) = dateWritesOf tr := by
  simp [dateWritesOf, List.filterMap_cons]

theorem dateWritesOf_cons_writeDate (v : String) (tr : List Ev) :
    dateWritesOf (Ev.writeDate v :: tr) = v :: dateWritesOf tr := by
  simp [dateWritesOf, List.filterMap_cons]

theorem dateWritesOf_cons_yield (t : Tx) (tr : List Ev) :
    dateWritesOf (Ev.yieldTx t :: tr) = dateWritesOf tr := by
  simp [dateWritesOf, List.filterMap_cons]

theorem dateWritesOf_append (a b : List Ev) :
    dateWritesOf (a ++ b) = dateWritesOf a ++ dateWritesOf b := by
  simp [dateWritesOf, List.filterMap_append]

theorem nextDate_of_not_truthy {c : Option String} {t : Tx}
    (h : truthyS (nextDate c t) = false) : nextDate c t = c := by
  by_cases hc : (t.date != "" && (! truthyS c || strLt (c.getD "") t.date)) = true
  · exfalso
    rw [nextDate, if_pos hc] at h
    simp only [Bool.and_eq_true] at hc
    simp [truthyS, hc.1] at h
  · rw [nextDate, if_neg hc]

theorem yieldsOf_yieldLoop : ∀ (l : List Tx) (cid : Option Nat) (cdate : Option String),
    yieldsOf (yieldLoop cid cdate l) = l := by
  intro l
  induction l with
  | nil => intro cid cdate; rfl
  | cons t rest ih =>
    intro cid cdate
    rw [yieldLoop]
    by_cases hd : truthyS (nextDate cdate t) = true
    · simp only [hd, if_pos]
      rw [yieldsOf_cons_writeId, List.singleton_append, yieldsOf_cons_writeDate,
        yieldsOf_cons_yield, ih]
    · simp only [hd, if_neg, Bool.not_eq_true]
      rw [yieldsOf_cons_writeId, List.nil_append, yieldsOf_cons_yield, ih]

theorem applyTrace_yieldLoop :
    ∀ (l : List Tx) (cd : CacheSt),
      applyTrace cd (yieldLoop cd.lastId cd.lastDate l) =
        ⟨List.foldl nextId cd.lastId l, List.foldl nextDate cd.lastDate l⟩ := by
  intro l
  induction l with
  | nil => intro cd; cases cd; rfl
  | cons t rest ih =>
    intro cd
    rw [yieldLoop]
    by_cases hd : truthyS (nextDate cd.lastDate t) = true
    · obtain ⟨s, hs⟩ : ∃ s, nextDate cd.lastDate t = some s := by
        cases h : nextDate cd.lastDate t with
        | none => rw [h] at hd; exact absurd hd (by simp [truthyS])
        | some s => exact ⟨s, rfl⟩
      simp only [hd, if_pos]
      show applyTrace cd
        (Ev.writeId (nextId cd.lastId t) ::
          ([Ev.writeDate ((nextDate cd.lastDate t).getD "")] ++
            (Ev.yieldTx t :: yieldLoop (nextId cd.lastId t) (nextDate cd.lastDate t) rest))) = _
      have step : applyTrace cd
          (Ev.writeId (nextId cd.lastId t) ::
            ([Ev.writeDate ((nextDate cd.lastDate t).getD "")] ++
              (Ev.yieldTx t :: yieldLoop (nextId cd.lastId t) (nextDate cd.lastDate t) rest))) =
          applyTrace ⟨nextId cd.lastId t, nextDate cd.lastDate t⟩
            (yieldLoop (nextId cd.lastId t) (nextDate cd.lastDate t) rest) := by
        simp [applyTrace, applyEv, hs]
      rw [step]
      have := ih ⟨nextId cd.lastId t, nextDate cd.lastDate t⟩
      simp only at this
      rw [this]
      rfl
    · have hdd : nextDate cd.lastDate t = cd.lastDate :=
        nextDate_of_not_truthy (Bool.not_eq_true _ ▸ eq_false_of_ne_true hd)
      simp only [hd, if_neg, Bool.not_eq_true]
      show applyTrace cd
        (Ev.writeId (nextId cd.lastId t) ::
          ([] ++ (Ev.yieldTx t :: yieldLoop (nextId cd.lastId t) (nextDate cd.lastDate t) rest))) = _
      have step : applyTrace cd
          (Ev.writeId (nextId cd.lastId t) ::
            ([] ++ (Ev.yieldTx t :: yieldLoop (nextId cd.lastId t) (nextDate cd.lastDate t) rest))) =
          applyTrace ⟨nextId cd.lastId t, cd.lastDate⟩
            (yieldLoop (nextId cd.lastId t) (nextDate cd.lastDate t) rest) := by
        simp [applyTrace, applyEv]
      rw [step, hdd]
      have := ih ⟨nextId cd.lastId t, cd.lastDate⟩
      simp only at this
      rw [this, List.foldl_cons, List.foldl_cons, hdd]

theorem runCycle_snd (c : CacheSt) (raw : List Tx) :
    (runCycle c raw).2 =
      ⟨List.foldl nextId c.lastId (sortTxs (processBatch c.lastId raw [])),
        List.foldl nextDate c.lastDate (sortTxs (processBatch c.lastId raw []))⟩ := by
  rw [runCycle]
  exact applyTrace_yieldLoop _ c

/-! ### Lemmas: checkpoint monotonicity -/

theorem optLeN_refl (o : Option Nat) : optLeN o o := by
  cases o <;> simp [optLeN]

theorem optLeD_refl (o : Option String) : optLeD o o := by
  cases o with
  | none => trivial
  | some s => exact strLe_refl s

theorem strLe_empty_left (s : String) : strLe "" s = true := by
  simp [strLe, strLt, lexLt_nil_right]

theorem nextId_mono (cur : Option Nat) (t : Tx) : optLeN cur (nextId cur t) := by
  rw [nextId]
  by_cases h : (t.id != 0 && (! truthyN cur || decide (cur.getD 0 < t.id))) = true
  · rw [if_pos h]
    cases cur with
    | none => trivial
    | some v =>
      simp only [Bool.and_eq_true, Bool.or_eq_true, truthyN, Bool.not_eq_true',
        bne_eq_false_iff_eq, decide_eq_true_eq] at h
      rcases h.2 with hv | hv
      · simp [optLeN, hv]
      · simp only [Option.getD] at hv
        exact Nat.le_of_lt hv
  · rw [if_neg h]
    exact optLeN_refl cur

theorem nextDate_mono (cur : Option String) (t : Tx) : optLeD cur (nextDate cur t) := by
  rw [nextDate]
  by_cases h : (t.date != "" && (! truthyS cur || strLt (cur.getD "") t.date)) = true
  · rw [if_pos h]
    cases cur with
    | none => trivial
    | some s =>
      simp only [Bool.and_eq_true, Bool.or_eq_true, truthyS, Bool.not_eq_true',
        bne_eq_false_iff_eq] at h
      rcases h.2 with hv | hv
      · subst hv
        exact strLe_empty_left t.date
      · simp only [Option.getD] at hv
        exact strLe_of_strLt hv
  · rw [if_neg h]
    exact optLeD_refl cur

theorem idWrites_chain :
    ∀ (l : List Tx) (cid : Option Nat) (cdate : Option String),
      List.Chain' optLeN (cid :: idWritesOf (yieldLoop cid cdate l)) := by
  intro l
  induction l with
  | nil => intro cid cdate; simp [yieldLoop, idWritesOf]
  | cons t rest ih =>
    intro cid cdate
    rw [yieldLoop]
    by_cases hd : truthyS (nextDate cdate t) = true
    · simp only [hd, if_pos]
      rw [idWritesOf_cons_writeId, List.singleton_append, idWritesOf_cons_writeDate,
        idWritesOf_cons_yield]
      exact List.chain'_cons.mpr ⟨nextId_mono cid t, ih (nextId cid t) (nextDate cdate t)⟩
    · simp only [hd, if_neg, Bool.not_eq_true]
      rw [idWritesOf_cons_writeId, List.nil_append, idWritesOf_cons_yield]
      exact List.chain'_cons.mpr ⟨nextId_mono cid t, ih (nextId cid t) (nextDate cdate t)⟩

theorem dateWrites_chain :
    ∀ (l : List Tx) (cid : Option Nat) (cdate : Option String),
      List.Chain' optLeD (cdate :: (dateWritesOf (yieldLoop cid cdate l)).map some) := by
  intro l
  induction l with
  | nil => intro cid cdate; simp [yieldLoop, dateWritesOf]
  | cons t rest ih =>
    intro cid cdate
    rw [yieldLoop]
    by_cases hd : truthyS (nextDate cdate t) = true
    · obtain ⟨s, hs⟩ : ∃ s, nextDate cdate t = some s := by
        cases h : nextDate cdate t with
        | none => rw [h] at hd; exact absurd hd (by simp [truthyS])
        | some s => exact ⟨s, rfl⟩
      simp only [hd, if_pos]
      rw [dateWritesOf_cons_writeId, List.singleton_append, dateWritesOf_cons_writeDate,
        dateWritesOf_cons_yield, List.map_cons]
      have hmono : optLeD cdate (some ((nextDate cdate t).getD "")) := by
        rw [hs]
        exact hs ▸ nextDate_mono cdate t
      refine List.chain'_cons.mpr ⟨hmono, ?_⟩
      have := ih (nextId cid t) (nextDate cdate t)
      rw [hs] at this
      simpa [hs] using this
    · have hdd : nextDate cdate t = cdate :=
        nextDate_of_not_truthy (eq_false_of_ne_true hd)
      simp only [hd, if_neg, Bool.not_eq_true]
      rw [dateWritesOf_cons_writeId, List.nil_append, dateWritesOf_cons_yield, hdd]
      exact ih (nextId cid t) cdate

theorem idWrites_getLast :
    ∀ (l : List Tx) (cid : Option Nat) (cdate : Option String),
      (cid :: idWritesOf (yieldLoop cid cdate l)).getLast? =
        some (List.foldl nextId cid l) := by
  intro l
  induction l with
  | nil => intro cid cdate; simp [yieldLoop, idWritesOf]
  | cons t rest ih =>
    intro cid cdate
    rw [yieldLoop]
    by_cases hd : truthyS (nextDate cdate t) = true
    · simp only [hd, if_pos]
      rw [idWritesOf_cons_writeId, List.singleton_append, idWritesOf_cons_writeDate,
        idWritesOf_cons_yield, List.getLast?_cons_cons, ih (nextId cid t) (nextDate cdate t),
        List.foldl_cons]
    · simp only [hd, if_neg, Bool.not_eq_true]
      rw [idWritesOf_cons_writeId, List.nil_append, idWritesOf_cons_yield,
        List.getLast?_cons_cons, ih (nextId cid t) (nextDate cdate t), List.foldl_cons]

theorem dateWrites_getLast :
    ∀ (l : List Tx) (cid : Option Nat) (cdate : Option String),
      (cdate :: (dateWritesOf (yieldLoop cid cdate l)).map some).getLast? =
        some (List.foldl nextDate cdate l) := by
  intro l
  induction l with
  | nil => intro cid cdate; simp [yieldLoop, dateWritesOf]
  | cons t rest ih =>
    intro cid cdate
    rw [yieldLoop]
    by_cases hd : truthyS (nextDate cdate t) = true
    · obtain ⟨s, hs⟩ : ∃ s, nextDate cdate t = some s := by
        cases h : nextDate cdate t with
        | none => rw [h] at hd; exact absurd hd (by simp [truthyS])
        | some s => exact ⟨s, rfl⟩
      simp only [hd, if_pos]
      rw [dateWritesOf_cons_writeId, List.singleton_append, dateWritesOf_cons_writeDate,
        dateWritesOf_cons_yield, List.map_cons, List.getLast?_cons_cons, List.foldl_cons]
      have := ih (nextId cid t) (nextDate cdate t)
      rw [hs] at this ⊢
      simpa [hs] using this
    · have hdd : nextDate cdate t = cdate :=
        nextDate_of_not_truthy (eq_false_of_ne_true hd)
      simp only [hd, if_neg, Bool.not_eq_true]
      rw [dateWritesOf_cons_writeId, List.nil_append, dateWritesOf_cons_yield,
        List.foldl_cons, hdd]
      exact ih (nextId cid t) cdate

theorem runCycle_fst (c : CacheSt) (raw : List Tx) :
    (runCycle c raw).1 = yieldLoop c.lastId c.lastDate (sortTxs (processBatch c.lastId raw [])) :=
  rfl

theorem runCycles_fst (c : CacheSt) (raw : List Tx) (rest : List (List Tx)) :
    (runCycles c (raw :: rest)).1 = (runCycle c raw).1 ++ (runCycles (runCycle c raw).2 rest).1 :=
  rfl

theorem cycles_id_chain :
    ∀ (batches : List (List Tx)) (c : CacheSt),
      List.Chain' optLeN (c.lastId :: idWritesOf (runCycles c batches).1) := by
  intro batches
  induction batches with
  | nil => intro c; simp [runCycles, idWritesOf]
  | cons raw rest ih =>
    intro c
    rw [runCycles_fst, idWritesOf_append, ← List.cons_append]
    have h1 : List.Chain' optLeN (c.lastId :: idWritesOf (runCycle c raw).1) := by
      rw [runCycle_fst]
      exact idWrites_chain _ c.lastId c.lastDate
    have h2 : List.Chain' optLeN
        ((runCycle c raw).2.lastId :: idWritesOf (runCycles (runCycle c raw).2 rest).1) :=
      ih (runCycle c raw).2
    have hlast : (c.lastId :: idWritesOf (runCycle c raw).1).getLast? =
        some (runCycle c raw).2.lastId := by
      rw [runCycle_fst, runCycle_snd]
      exact idWrites_getLast _ c.lastId c.lastDate
    refine List.chain'_append.mpr ⟨h1, (List.chain'_cons'.mp h2).2, ?_⟩
    intro x hx y hy
    rw [hlast] at hx
    simp only [Option.mem_def, Option.some_inj] at hx
    subst hx
    exact (List.chain'_cons'.mp h2).1 y hy

theorem cycles_date_chain :
    ∀ (batches : List (List Tx)) (c : CacheSt),
      List.Chain' optLeD (c.lastDate :: (dateWritesOf (runCycles c batches).1).map some) := by
  intro batches
  induction batches with
  | nil => intro c; simp [runCycles, dateWritesOf]
  | cons raw rest ih =>
    intro c
    rw [runCycles_fst, dateWritesOf_append, List.map_append, ← List.cons_append]
    have h1 : List.Chain' optLeD (c.lastDate :: (dateWritesOf (runCycle c raw).1).map some) := by
      rw [runCycle_fst]
      exact dateWrites_chain _ c.lastId c.lastDate
    have h2 : List.Chain' optLeD
        ((runCycle c raw).2.lastDate ::
          (dateWritesOf (runCycles (runCycle c raw).2 rest).1).map some) :=
      ih (runCycle c raw).2
    have hlast : (c.lastDate :: (dateWritesOf (runCycle c raw).1).map some).getLast? =
        some (runCycle c raw).2.lastDate := by
      rw [runCycle_fst, runCycle_snd]
      exact dateWrites_getLast _ c.lastId c.lastDate
    refine List.chain'_append.mpr ⟨h1, (List.chain'_cons'.mp h2).2, ?_⟩
    intro x hx y hy
    rw [hlast] at hx
    simp only [Option.mem_def, Option.some_inj] at hx
    subst hx
    exact (List.chain'_cons'.mp h2).1 y hy

/-! ### Lemmas: position of cache writes relative to yields -/

theorem writeAt_succ (e : Ev) (tr : List Ev) (n : Nat) :
    writeAt (e :: tr) (n + 1) = writeAt tr n := rfl

theorem yieldAt_succ (e : Ev) (tr : List Ev) (n : Nat) :
    yieldAt (e :: tr) (n + 1) = yieldAt tr n := rfl

theorem write_then_yield :
    ∀ (l : List Tx) (cid : Option Nat) (cdate : Option String) (i : Nat),
      writeAt (yieldLoop cid cdate l) i = true →
      yieldAt (yieldLoop cid cdate l) (i + 1) = true ∨
        yieldAt (yieldLoop cid cdate l) (i + 2) = true := by
  intro l
  induction l with
  | nil => intro cid cdate i h; simp [yieldLoop, writeAt] at h
  | cons t rest ih =>
    intro cid cdate i h
    rw [yieldLoop] at h ⊢
    by_cases hd : truthyS (nextDate cdate t) = true
    · simp only [hd, if_pos, List.singleton_append] at h ⊢
      match i with
      | 0 => exact Or.inr rfl
      | 1 => exact Or.inl rfl
      | 2 => exact absurd h (by simp [writeAt, yieldAt])
      | (k + 3) =>
        rw [writeAt_succ, writeAt_succ, writeAt_succ] at h
        rcases ih (nextId cid t) (nextDate cdate t) k h with hy | hy
        · exact Or.inl hy
        · exact Or.inr hy
    · simp only [hd, if_neg, Bool.not_eq_true, List.nil_append] at h ⊢
      match i with
      | 0 => exact Or.inl rfl
      | 1 => exact absurd h (by simp [writeAt, yieldAt])
      | (k + 2) =>
        rw [writeAt_succ, writeAt_succ] at h
        rcases ih (nextId cid t) (nextDate cdate t) k h with hy | hy
        · exact Or.inl hy
        · exact Or.inr hy

/-! ### Lemmas: dispatch isolation -/

theorem deliveriesTo_append (j : Nat) (a b : List (Tx × Nat × Bool)) :
    deliveriesTo j (a ++ b) = deliveriesTo j a ++ deliveriesTo j b := by
  simp [deliveriesTo, List.filterMap_append]

theorem deliveriesTo_dispatchEvent (t : Tx) (ev : Event) (j : Nat) :
    ∀ (hs : List Handler) (i : Nat),
      deliveriesTo j ((dispatchEvent hs i ev).map (fun r => (t, r))) =
        if i ≤ j ∧ j < i + hs.length then [t] else [] := by
  intro hs
  induction hs with
  | nil =>
    intro i
    rw [if_neg (by simp only [List.length_nil]; omega)]
    rfl
  | cons h rest ih =>
    intro i
    rw [dispatchEvent, List.map_cons]
    by_cases hj : i = j
    · subst hj
      have : deliveriesTo i ((t, i, callHandler h ev) ::
          (dispatchEvent rest (i + 1) ev).map (fun r => (t, r))) =
          t :: deliveriesTo i ((dispatchEvent rest (i + 1) ev).map (fun r => (t, r))) := by
        simp [deliveriesTo, List.filterMap_cons]
      rw [this, ih (i + 1), if_neg (by omega),
        if_pos (by simp only [List.length_cons]; omega)]
    · have : deliveriesTo j ((t, i, callHandler h ev) ::
          (dispatchEvent rest (i + 1) ev).map (fun r => (t, r))) =
          deliveriesTo j ((dispatchEvent rest (i + 1) ev).map (fun r => (t, r))) := by
        simp [deliveriesTo, List.filterMap_cons, hj]
      rw [this, ih (i + 1)]
      by_cases hcond : i + 1 ≤ j ∧ j < i + 1 + rest.length
      · rw [if_pos hcond, if_pos (by simp only [List.length_cons]; omega)]
      · rw [if_neg hcond, if_neg (by simp only [List.length_cons]; omega)]

theorem deliveriesTo_run_once (handlers : List Handler) (accountInfo : String)
    (j : Nat) (hj : j < handlers.length) :
    ∀ events : List Tx,
      deliveriesTo j (run_once handlers accountInfo events) = events := by
  intro events
  induction events with
  | nil => rfl
  | cons t rest ih =>
    rw [run_once, deliveriesTo_append, ih,
      deliveriesTo_dispatchEvent t (t, accountInfo) j handlers 0, if_pos (by omega)]
    rfl

/-! ### Lemmas: idempotent upserts -/

theorem lookupField_setField_same (r : Row) (k v : String) :
    lookupField (setField r k v) k = some v := by
  induction r with
  | nil => simp [setField, lookupField]
  | cons kv rest ih =>
    by_cases h : kv.1 = k
    · cases kv
      simp_all [setField, lookupField]
    · cases kv
      simp_all [setField, lookupField]

theorem lookupField_setField_other (r : Row) (k v q : String) (h : q ≠ k) :
    lookupField (setField r k v) q = lookupField r q := by
  induction r with
  | nil => simp [setField, lookupField, Ne.symm h]
  | cons kv rest ih =>
    cases kv with
    | mk k0 v0 =>
      by_cases hk : k0 = k
      · subst hk
        rw [setField, if_pos rfl, lookupField, lookupField,
          if_neg (fun he => h he.symm), if_neg (fun he => h he.symm)]
      · rw [setField, if_neg hk, lookupField, lookupField]
        by_cases hq : k0 = q
        · rw [if_pos hq, if_pos hq]
        · rw [if_neg hq, if_neg hq]
          exact ih

theorem setField_of_lookup_eq (r : Row) (k v : String)
    (h : lookupField r k = some v) : setField r k v = r := by
  induction r with
  | nil => simp [lookupField] at h
  | cons kv rest ih =>
    by_cases hk : kv.1 = k
    · cases kv with
      | mk k0 v0 =>
        simp only at hk
        subst hk
        rw [lookupField, if_pos rfl] at h
        rw [setField, if_pos rfl]
        simp only [Option.some_inj] at h
        rw [h]
    · cases kv with
      | mk k0 v0 =>
        simp only at hk
        rw [lookupField, if_neg hk] at h
        rw [setField, if_neg hk, ih h]

theorem lookupField_mergeRow_not_mem (r : Row) (p : Row) (k : String)
    (h : k ∉ p.map Prod.fst) :
    lookupField (mergeRow r p) k = lookupField r k := by
  induction p generalizing r with
  | nil => rfl
  | cons kv rest ih =>
    simp only [List.map_cons, List.mem_cons] at h
    push_neg at h
    rw [mergeRow, List.foldl_cons]
    have := ih (setField r kv.1 kv.2) h.2
    rw [mergeRow] at this
    rw [this, lookupField_setField_other r kv.1 kv.2 k h.1]

theorem lookupField_mergeRow_mem (r : Row) (p : Row)
    (hnd : (p.map Prod.fst).Nodup) :
    ∀ kv ∈ p, lookupField (mergeRow r p) kv.1 = some kv.2 := by
  induction p generalizing r with
  | nil => intro kv h; simp at h
  | cons kv0 rest ih =>
    intro kv hkv
    simp only [List.map_cons, List.nodup_cons] at hnd
    rw [mergeRow, List.foldl_cons]
    rcases List.mem_cons.mp hkv with rfl | hmem
    · have : lookupField (mergeRow (setField r kv.1 kv.2) rest) kv.1 =
          lookupField (setField r kv.1 kv.2) kv.1 :=
        lookupField_mergeRow_not_mem _ rest kv.1 hnd.1
      rw [mergeRow] at this
      rw [this, lookupField_setField_same]
    · exact ih (setField r kv0.1 kv0.2) hnd.2 kv hmem

theorem mergeRow_of_lookups (r : Row) :
    ∀ p : Row, (∀ kv ∈ p, lookupField r kv.1 = some kv.2) → mergeRow r p = r := by
  intro p
  induction p generalizing r with
  | nil => intro _; rfl
  | cons kv rest ih =>
    intro h
    rw [mergeRow, List.foldl_cons,
      setField_of_lookup_eq r kv.1 kv.2 (h kv (List.mem_cons_self kv rest))]
    exact ih r fun x hx => h x (List.mem_cons_of_mem kv hx)

theorem lookupField_self_of_nodup (p : Row) (hnd : (p.map Prod.fst).Nodup) :
    ∀ kv ∈ p, lookupField p kv.1 = some kv.2 := by
  induction p with
  | nil => intro kv h; simp at h
  | cons kv0 rest ih =>
    intro kv hkv
    simp only [List.map_cons, List.nodup_cons] at hnd
    rcases List.mem_cons.mp hkv with rfl | hmem
    · cases kv
      simp [lookupField]
    · have hne : kv.1 ≠ kv0.1 := by
        intro he
        exact hnd.1 (he ▸ List.mem_map_of_mem Prod.fst hmem)
      cases kv0
      rw [lookupField, if_neg (Ne.symm hne)]
      exact ih hnd.2 kv hmem

theorem mergeRow_idem (r : Row) (p : Row) (hnd : (p.map Prod.fst).Nodup) :
    mergeRow (mergeRow r p) p = mergeRow r p :=
  mergeRow_of_lookups (mergeRow r p) p (lookupField_mergeRow_mem r p hnd)

theorem colRestrict_keys_nodup (cols : List String) (p : Row)
    (hnd : (p.map Prod.fst).Nodup) :
    ((colRestrict cols p).map Prod.fst).Nodup :=
  List.Nodup.sublist (List.Sublist.map Prod.fst (List.filter_sublist p)) hnd

theorem lookupTable_upsertOne_same (cols : List String) :
    ∀ (tbl : Table) (p : Payload),
      lookupTable (upsertOne cols tbl p) p.id =
        some (match lookupTable tbl p.id with
          | some r => mergeRow r (colRestrict cols p.fields)
          | none => colRestrict cols p.fields) := by
  intro tbl
  induction tbl with
  | nil => intro p; simp [upsertOne, lookupTable]
  | cons row rest ih =>
    intro p
    cases row with
    | mk i r =>
      by_cases hi : i = p.id
      · rw [upsertOne, if_pos hi, lookupTable, if_pos hi, lookupTable, if_pos hi]
      · rw [upsertOne, if_neg hi, lookupTable, if_neg hi, lookupTable, if_neg hi]
        exact ih p

theorem lookupTable_upsertOne_other (cols : List String) :
    ∀ (tbl : Table) (p : Payload) (q : Nat), q ≠ p.id →
      lookupTable (upsertOne cols tbl p) q = lookupTable tbl q := by
  intro tbl
  induction tbl with
  | nil =>
    intro p q hq
    show (if p.id = q then some (colRestrict cols p.fields) else lookupTable [] q) = none
    rw [if_neg (fun he => hq (Eq.symm he))]
    rfl
  | cons row rest ih =>
    intro p q hq
    cases row with
    | mk i r =>
      by_cases hi : i = p.id
      · subst hi
        rw [upsertOne, if_pos rfl, lookupTable, lookupTable,
          if_neg (fun he => hq (Eq.symm he)), if_neg (fun he => hq (Eq.symm he))]
      · rw [upsertOne, if_neg hi, lookupTable, lookupTable]
        by_cases hiq : i = q
        · rw [if_pos hiq, if_pos hiq]
        · rw [if_neg hiq, if_neg hiq]
          exact ih p q hq

theorem upsertOne_keys (cols : List String) :
    ∀ (tbl : Table) (p : Payload),
      (upsertOne cols tbl p).map Prod.fst =
        if p.id ∈ tbl.map Prod.fst then tbl.map Prod.fst
        else tbl.map Prod.fst ++ [p.id] := by
  intro tbl
  induction tbl with
  | nil => intro p; simp [upsertOne]
  | cons row rest ih =>
    intro p
    cases row with
    | mk i r =>
      by_cases hi : i = p.id
      · subst hi
        rw [upsertOne, if_pos rfl]
        simp [List.mem_cons]
      · rw [upsertOne, if_neg hi]
        simp only [List.map_cons, List.mem_cons]
        rw [ih p]
        by_cases hmem : p.id ∈ rest.map Prod.fst
        · rw [if_pos hmem, if_pos (Or.inr hmem)]
        · rw [if_neg hmem, if_neg (by
            intro hc
            rcases hc with hc | hc
            · exact hi hc.symm
            · exact hmem hc)]
          simp

theorem upsertOne_keys_nodup (cols : List String) (tbl : Table) (p : Payload)
    (h : (tbl.map Prod.fst).Nodup) :
    ((upsertOne cols tbl p).map Prod.fst).Nodup := by
  rw [upsertOne_keys]
  by_cases hmem : p.id ∈ tbl.map Prod.fst
  · rwa [if_pos hmem]
  · rw [if_neg hmem]
    simp [List.nodup_append, h, hmem]

theorem upsertOne_noop (cols : List String) :
    ∀ (tbl : Table) (p : Payload) (r : Row),
      lookupTable tbl p.id = some r →
      mergeRow r (colRestrict cols p.fields) = r →
      upsertOne cols tbl p = tbl := by
  intro tbl
  induction tbl with
  | nil => intro p r h _; simp [lookupTable] at h
  | cons row rest ih =>
    intro p r h hm
    cases row with
    | mk i r0 =>
      by_cases hi : i = p.id
      · rw [lookupTable, if_pos hi] at h
        simp only [Option.some_inj] at h
        subst h
        rw [upsertOne, if_pos hi, hm]
      · rw [lookupTable, if_neg hi] at h
        rw [upsertOne, if_neg hi, ih p r h hm]

theorem lookupTable_upsertMany_not_mem (cols : List String) :
    ∀ (batch : List Payload) (tbl : Table) (q : Nat),
      q ∉ batch.map Payload.id →
      lookupTable (upsertMany cols tbl batch) q = lookupTable tbl q := by
  intro batch
  induction batch with
  | nil => intro tbl q _; rfl
  | cons p rest ih =>
    intro tbl q hq
    simp only [List.map_cons, List.mem_cons] at hq
    push_neg at hq
    rw [upsertMany, List.foldl_cons]
    have := ih (upsertOne cols tbl p) q hq.2
    rw [upsertMany] at this
    rw [this, lookupTable_upsertOne_other cols tbl p q hq.1]

theorem upsertMany_keys_nodup (cols : List String) :
    ∀ (batch : List Payload) (tbl : Table),
      (tbl.map Prod.fst).Nodup → ((upsertMany cols tbl batch).map Prod.fst).Nodup := by
  intro batch
  induction batch with
  | nil => intro tbl h; exact h
  | cons p rest ih =>
    intro tbl h
    rw [upsertMany, List.foldl_cons]
    exact ih (upsertOne cols tbl p) (upsertOne_keys_nodup cols tbl p h)

theorem upsertMany_idem (cols : List String) :
    ∀ (batch : List Payload) (tbl : Table),
      (batch.map Payload.id).Nodup →
      (∀ p ∈ batch, (p.fields.map Prod.fst).Nodup) →
      upsertMany cols (upsertMany cols tbl batch) batch = upsertMany cols tbl batch := by
  intro batch
  induction batch with
  | nil => intro tbl _ _; rfl
  | cons p rest ih =>
    intro tbl hids hfields
    simp only [List.map_cons, List.nodup_cons] at hids
    have hpn : ((colRestrict cols p.fields).map Prod.fst).Nodup :=
      colRestrict_keys_nodup cols p.fields (hfields p (List.mem_cons_self p rest))
    have hid_not : p.id ∉ rest.map Payload.id := hids.1
    have hlk : lookupTable (upsertMany cols (upsertOne cols tbl p) rest) p.id =
        lookupTable (upsertOne cols tbl p) p.id :=
      lookupTable_upsertMany_not_mem cols rest (upsertOne cols tbl p) p.id hid_not
    have hfix : ∃ r, lookupTable (upsertOne cols tbl p) p.id = some r ∧
        mergeRow r (colRestrict cols p.fields) = r := by
      rw [lookupTable_upsertOne_same cols tbl p]
      cases hbase : lookupTable tbl p.id with
      | some r0 =>
        refine ⟨mergeRow r0 (colRestrict cols p.fields), rfl, ?_⟩
        exact mergeRow_idem r0 (colRestrict cols p.fields) hpn
      | none =>
        refine ⟨colRestrict cols p.fields, rfl, ?_⟩
        exact mergeRow_of_lookups _ _ (lookupField_self_of_nodup _ hpn)
    rcases hfix with ⟨r, hr, hm⟩
    have hnoop : upsertOne cols (upsertMany cols (upsertOne cols tbl p) rest) p =
        upsertMany cols (upsertOne cols tbl p) rest :=
      upsertOne_noop cols _ p r (hlk.trans hr) hm
    have hrec := ih (upsertOne cols tbl p)
      hids.2 (fun q hq => hfields q (List.mem_cons_of_mem p hq))
    show upsertMany cols (upsertOne cols (upsertMany cols (upsertOne cols tbl p) rest) p) rest =
      upsertMany cols (upsertOne cols tbl p) rest
    rw [hnoop]
    exact hrec

theorem upsertMany_final_values (cols : List String) :
    ∀ (batch : List Payload) (tbl : Table),
      (batch.map Payload.id).Nodup →
      (∀ p ∈ batch, (p.fields.map Prod.fst).Nodup) →
      ∀ p ∈ batch, ∃ r, lookupTable (upsertMany cols tbl batch) p.id = some r ∧
        ∀ kv ∈ colRestrict cols p.fields, lookupField r kv.1 = some kv.2 := by
  intro batch
  induction batch with
  | nil => intro tbl _ _ p hp; simp at hp
  | cons p0 rest ih =>
    intro tbl hids hfields p hp
    simp only [List.map_cons, List.nodup_cons] at hids
    rcases List.mem_cons.mp hp with rfl | hmem
    · have hpn : ((colRestrict cols p.fields).map Prod.fst).Nodup :=
        colRestrict_keys_nodup cols p.fields (hfields p (List.mem_cons_self p rest))
      rw [upsertMany, List.foldl_cons]
      have hlk : lookupTable (List.foldl (upsertOne cols) (upsertOne cols tbl p) rest) p.id =
          lookupTable (upsertOne cols tbl p) p.id := by
        have := lookupTable_upsertMany_not_mem cols rest (upsertOne cols tbl p) p.id hids.1
        rwa [upsertMany] at this
      rw [hlk, lookupTable_upsertOne_same cols tbl p]
      cases hbase : lookupTable tbl p.id with
      | some r0 =>
        exact ⟨mergeRow r0 (colRestrict cols p.fields), rfl,
          lookupField_mergeRow_mem r0 _ hpn⟩
      | none =>
        exact ⟨colRestrict cols p.fields, rfl, lookupField_self_of_nodup _ hpn⟩
    · rw [upsertMany, List.foldl_cons]
      have := ih (upsertOne cols tbl p0) hids.2
        (fun q hq => hfields q (List.mem_cons_of_mem p0 hq)) p hmem
      rwa [upsertMany] at this

/-! ### Claim theorems -/

/-- C1 (counterexample): the claim that no transaction's id is written to
the checkpoint cache before that transaction has been delivered to the
consumer is FALSE: in the run below (authenticated client, empty cache,
one fetched transaction with id 5), `writeBeforeDelivery` finds a cache
write of id 5 occurring before the yield of that transaction — the code
updates the cache immediately before each `yield`, not after. -/
theorem c1_counterexample :
    (match (stream_new_transactions ⟨some "token", ⟨none, none⟩⟩
        [Except.ok ⟨[⟨5, "2020-01-02", "a"⟩], none⟩]).1 with
      | Except.ok tr => writeBeforeDelivery tr []
      | Except.error _ => false) = true := by
  decide

/-- C1 (amended): checkpoint-cache writes are interleaved with delivery,
one block per transaction, with the writes coming immediately BEFORE the
corresponding yield: every cache write in a stream run's trace is followed
at distance 1 or 2 by the yield of a transaction, so the checkpoint never
runs more than the single in-flight transaction ahead of the consumer. -/
theorem c1_amended_write_precedes_yield (cid : Option Nat) (cdate : Option String)
    (l : List Tx) (i : Nat) (h : writeAt (yieldLoop cid cdate l) i = true) :
    yieldAt (yieldLoop cid cdate l) (i + 1) = true ∨
      yieldAt (yieldLoop cid cdate l) (i + 2) = true :=
  write_then_yield l cid cdate i h

/-- Witness for `c1_amended_write_precedes_yield` at a concrete run. -/
theorem c1_amended_witness :
    writeAt (yieldLoop none none [⟨5, "2020-01-02", "a"⟩]) 0 = true ∧
    (yieldAt (yieldLoop none none [⟨5, "2020-01-02", "a"⟩]) 1 = true ∨
      yieldAt (yieldLoop none none [⟨5, "2020-01-02", "a"⟩]) 2 = true) :=
  ⟨by decide, c1_amended_write_precedes_yield none none [⟨5, "2020-01-02", "a"⟩] 0 (by decide)⟩

/-- C3: sink isolation in `run_once`.  For any handler list, any account
info and any event list, the handler at any index `j` receives every
event exactly once, in order — regardless of what any handler (including
itself) returns or raises, because each `process_transaction` call sits in
its own `try/except`. -/
theorem c3_sink_isolation (handlers : List Handler) (accountInfo : String)
    (events : List Tx) (j : Nat) (hj : j < handlers.length) :
    deliveriesTo j (run_once handlers accountInfo events) = events :=
  deliveriesTo_run_once handlers accountInfo j hj events

/-- Witness for `c3_sink_isolation`: sink A (index 0) throws on every
call, sink B (index 1) succeeds; both events still reach B exactly once. -/
theorem c3_witness :
    1 < ([fun _ => Except.error "boom", fun _ => Except.ok ()] : List Handler).length ∧
    deliveriesTo 1 (run_once [fun _ => Except.error "boom", fun _ => Except.ok ()] "acct"
        [⟨1, "d1", "p"⟩, ⟨2, "d2", "q"⟩]) = [⟨1, "d1", "p"⟩, ⟨2, "d2", "q"⟩] :=
  ⟨by decide,
    c3_sink_isolation [fun _ => Except.error "boom", fun _ => Except.ok ()] "acct"
      [⟨1, "d1", "p"⟩, ⟨2, "d2", "q"⟩] 1 (by decide)⟩

/-- C4 (counterexample): the claim that the candidate checkpoint equals
the maximum `(date, identifier)` COMPOSITE key of the batch is FALSE: on
the batch `[(id 7, 2020-01-01), (id 5, 2020-01-02)]` the composite
maximum is `(2020-01-02, 5)`, but the code commits `(id 7, 2020-01-02)` —
it maximizes the id and the date independently. -/
theorem c4_counterexample :
    compositeKeyMax [⟨7, "2020-01-01", "x"⟩, ⟨5, "2020-01-02", "y"⟩] =
        some ("2020-01-02", 5) ∧
    (runCycle ⟨none, none⟩ [⟨7, "2020-01-01", "x"⟩, ⟨5, "2020-01-02", "y"⟩]).2 ≠
        ⟨some 5, some "2020-01-02"⟩ ∧
    (runCycle ⟨none, none⟩ [⟨7, "2020-01-01", "x"⟩, ⟨5, "2020-01-02", "y"⟩]).2 =
        ⟨some 7, some "2020-01-02"⟩ := by
  refine ⟨by decide, by decide, by decide⟩

/-- C4 (amended): after a cycle the committed checkpoint's id is the
running maximum (under Python truthiness) over the prior cached id and the
new batch's ids, and its date is — independently — the running maximum
over the prior cached date and the new batch's dates; when the batch of
new transactions is empty the cache is left untouched. -/
theorem c4_amended_independent_maxima (c : CacheSt) (raw : List Tx) :
    (runCycle c raw).2 =
      ⟨List.foldl nextId c.lastId (sortTxs (processBatch c.lastId raw [])),
        List.foldl nextDate c.lastDate (sortTxs (processBatch c.lastId raw []))⟩ ∧
    (processBatch c.lastId raw [] = [] → (runCycle c raw).2 = c) := by
  refine ⟨runCycle_snd c raw, ?_⟩
  intro h
  rw [runCycle_snd, h]
  show (⟨List.foldl nextId c.lastId [], List.foldl nextDate c.lastDate []⟩ : CacheSt) = c
  cases c
  rfl

/-- Witness for `c4_amended_independent_maxima` (the embedded
empty-batch implication discharged at a concrete input). -/
theorem c4_witness :
    (runCycle ⟨some 2, some "d0"⟩ [⟨1, "d1", "w"⟩]).2 = ⟨some 2, some "d0"⟩ :=
  (c4_amended_independent_maxima ⟨some 2, some "d0"⟩ [⟨1, "d1", "w"⟩]).2 (by decide)

/-- C5: checkpoint monotonicity.  Across any sequence of cycles starting
from any cache state, the successive values written under
`last_transaction_id` form a non-decreasing chain (starting from the
initial cached value), and so do the values written under
`last_transaction_date` — the committed checkpoint never regresses. -/
theorem c5_checkpoint_monotone (c : CacheSt) (batches : List (List Tx)) :
    List.Chain' optLeN (c.lastId :: idWritesOf (runCycles c batches).1) ∧
    List.Chain' optLeD (c.lastDate :: (dateWritesOf (runCycles c batches).1).map some) :=
  ⟨cycles_id_chain batches c, cycles_date_chain batches c⟩

/-- C6 (counterexample): the claim that every network call is wrapped in
a 3-attempt retry with backoff on transient failures is FALSE: on an
oracle whose first response is a timeout and whose second is a success,
the spec's retry wrapper succeeds after 2 attempts, while the code fails
after exactly 1 attempt (no retry exists in the code). -/
theorem c6_counterexample :
    list_transactions ⟨some "tok", ⟨none, none⟩⟩
        ([Except.error HttpFailure.timeout, Except.ok 42] : List (Except HttpFailure Nat)) ≠
      retrySpec [Except.error HttpFailure.timeout, Except.ok 42] ∧
    (list_transactions ⟨some "tok", ⟨none, none⟩⟩
        ([Except.error HttpFailure.timeout, Except.ok 42] : List (Except HttpFailure Nat))).2 = 1 ∧
    (retrySpec ([Except.error HttpFailure.timeout, Except.ok 42] :
        List (Except HttpFailure Nat))).2 = 2 := by
  refine ⟨by decide, by decide, by decide⟩

/-- C6 (amended): each network call of `list_transactions` is attempted
exactly once — the code coincides with a retry wrapper whose attempt
budget is 1 rather than 3: any failure (transient or not) propagates
immediately, with HTTP status errors re-raised as enriched fetch errors. -/
theorem c6_amended_single_attempt {α : Type} (st : ClientState)
    (oracle : List (Except HttpFailure α)) (hauth : truthyS st.authToken = true) :
    list_transactions st oracle = retrySpecGo 1 oracle := by
  have he : ensure_authenticated st = Except.ok () := by
    rw [ensure_authenticated, if_pos hauth]
  cases oracle with
  | nil => simp [list_transactions, he, retrySpecGo]
  | cons r rest =>
    cases r with
    | ok a => simp [list_transactions, he, retrySpecGo]
    | error f => simp [list_transactions, he, retrySpecGo]

/-- Witness for `c6_amended_single_attempt` at a concrete oracle. -/
theorem c6_witness :
    truthyS (some "tok6") = true ∧
    list_transactions ⟨some "tok6", ⟨none, none⟩⟩
        ([Except.ok 7] : List (Except HttpFailure Nat)) = retrySpecGo 1 [Except.ok 7] :=
  ⟨by decide, c6_amended_single_attempt ⟨some "tok6", ⟨none, none⟩⟩ [Except.ok 7] (by decide)⟩

/-- C8: evaluation of `upsert_account_balance` at the claim's scenario.
Submitting the same `(accountId, observedAt)` twice does short-circuit to
a single history entry, but submitting the same account with a strictly
LATER timestamp does not record a new snapshot row: the code adds a brand
new row while the schema declares `account_id` UNIQUE, so the commit
raises `IntegrityError` and nothing is stored — the code contradicts its
own "insert or update" documentation and the history-accumulating query
in `last_account_balance`. -/
theorem c8_balance_history_rejected :
    upsert_account_balance [] 1 100 0 1000 = Except.ok [⟨1, 100, 0, 1000⟩] ∧
    upsert_account_balance [⟨1, 100, 0, 1000⟩] 1 100 0 1000 =
      Except.ok [⟨1, 100, 0, 1000⟩] ∧
    upsert_account_balance [⟨1, 100, 0, 1000⟩] 1 120 0 2000 =
      Except.error DBError.integrityError := by
  refine ⟨by decide, by decide, by decide⟩

/-- C2: dedup correctness.  For an authenticated client whose committed
identifier checkpoint is `some c` (an id checkpoint "exists", i.e. is
truthy: `c ≠ 0`), a successful run over any fetched batch yields exactly
the batch with duplicate ids collapsed to their first occurrence and
every record with id ≤ `c` dropped (then sorted); in particular no
yielded transaction has id ≤ `c`. -/
theorem c2_dedup_correctness (st : ClientState) (pages : List (Except HttpFailure PageData))
    (c : Nat) (raw : List Tx) (n : Nat)
    (hauth : truthyS st.authToken = true)
    (hcache : st.cache.lastId = some c) (hc : c ≠ 0)
    (hfetch : fetchPages pages = (Except.ok raw, n)) :
    ∃ tr, (stream_new_transactions st pages).1 = Except.ok tr ∧
      yieldsOf tr = sortTxs ((specDedup raw []).filter (fun t => decide (c < t.id))) ∧
      ∀ t ∈ yieldsOf tr, c < t.id := by
  have he : ensure_authenticated st = Except.ok () := by
    rw [ensure_authenticated, if_pos hauth]
  refine ⟨yieldLoop st.cache.lastId st.cache.lastDate
      (sortTxs (processBatch st.cache.lastId raw [])), ?_, ?_, ?_⟩
  · simp only [stream_new_transactions, he, hfetch]
  · rw [yieldsOf_yieldLoop, hcache, processBatch_eq_filter_specDedup hc]
  · intro t ht
    rw [yieldsOf_yieldLoop, hcache, processBatch_eq_filter_specDedup hc] at ht
    have hmem := (sortTxs_perm _).mem_iff.mp ht
    have := List.mem_filter.mp hmem
    simpa using this.2

/-- Witness for `c2_dedup_correctness`: checkpoint `(d2, 5)`, fetch
returns ids `[3, 5, 7]`; only `7` passes. -/
theorem c2_witness :
    truthyS (⟨some "tokc2", ⟨some 5, some "d2"⟩⟩ : ClientState).authToken = true ∧
    (⟨some "tokc2", ⟨some 5, some "d2"⟩⟩ : ClientState).cache.lastId = some 5 ∧
    (5 : Nat) ≠ 0 ∧
    fetchPages [Except.ok ⟨[⟨3, "d1", "x"⟩, ⟨5, "d2", "y"⟩, ⟨7, "d3", "z"⟩], none⟩] =
      (Except.ok [⟨3, "d1", "x"⟩, ⟨5, "d2", "y"⟩, ⟨7, "d3", "z"⟩], 1) ∧
    (∃ tr, (stream_new_transactions ⟨some "tokc2", ⟨some 5, some "d2"⟩⟩
        [Except.ok ⟨[⟨3, "d1", "x"⟩, ⟨5, "d2", "y"⟩, ⟨7, "d3", "z"⟩], none⟩]).1 =
          Except.ok tr ∧
      yieldsOf tr = sortTxs ((specDedup [⟨3, "d1", "x"⟩, ⟨5, "d2", "y"⟩, ⟨7, "d3", "z"⟩]
          []).filter (fun t => decide (5 < t.id))) ∧
      ∀ t ∈ yieldsOf tr, 5 < t.id) :=
  ⟨by decide, rfl, by decide, by decide,
    c2_dedup_correctness ⟨some "tokc2", ⟨some 5, some "d2"⟩⟩
      [Except.ok ⟨[⟨3, "d1", "x"⟩, ⟨5, "d2", "y"⟩, ⟨7, "d3", "z"⟩], none⟩]
      5 [⟨3, "d1", "x"⟩, ⟨5, "d2", "y"⟩, ⟨7, "d3", "z"⟩] 1
      (by decide) rfl (by decide) (by decide)⟩

/-- C9: emission order.  A successful run of `stream_new_transactions`
yields transactions pairwise STRICTLY increasing in the composite
`(date, id)` key — date first (Python string order), id as tiebreak —
whatever order the pages were fetched in. -/
theorem c9_yields_strictly_sorted (st : ClientState)
    (pages : List (Except HttpFailure PageData)) (raw : List Tx) (n : Nat)
    (hauth : truthyS st.authToken = true)
    (hfetch : fetchPages pages = (Except.ok raw, n)) :
    ∃ tr, (stream_new_transactions st pages).1 = Except.ok tr ∧
      (yieldsOf tr).Pairwise (fun a b => keyLt a b = true) := by
  have he : ensure_authenticated st = Except.ok () := by
    rw [ensure_authenticated, if_pos hauth]
  refine ⟨yieldLoop st.cache.lastId st.cache.lastDate
      (sortTxs (processBatch st.cache.lastId raw [])), ?_, ?_⟩
  · simp only [stream_new_transactions, he, hfetch]
  · rw [yieldsOf_yieldLoop]
    have hsorted := sortTxs_sorted (processBatch st.cache.lastId raw [])
    have hperm : ((sortTxs (processBatch st.cache.lastId raw [])).map Tx.id).Perm
        ((processBatch st.cache.lastId raw []).map Tx.id) :=
      (sortTxs_perm (processBatch st.cache.lastId raw [])).map Tx.id
    have hnodup : ((sortTxs (processBatch st.cache.lastId raw [])).map Tx.id).Nodup :=
      (List.Perm.nodup_iff hperm).mpr (processBatch_ids_nodup raw [])
    have hne : (sortTxs (processBatch st.cache.lastId raw [])).Pairwise
        (fun a b => a.id ≠ b.id) := List.pairwise_map.mp hnodup
    exact List.Pairwise.imp (fun hab => keyLt_of_keyLe_of_id_ne hab.1 hab.2)
      (hsorted.and hne)

/-- Witness for `c9_yields_strictly_sorted`: the spec's scenario — ids
`[5, 3, 7]` dated `[d2, d1, d3]`. -/
theorem c9_witness :
    truthyS (⟨some "tokc9", ⟨none, none⟩⟩ : ClientState).authToken = true ∧
    fetchPages [Except.ok ⟨[⟨5, "d2", "x"⟩, ⟨3, "d1", "y"⟩, ⟨7, "d3", "z"⟩], none⟩] =
      (Except.ok [⟨5, "d2", "x"⟩, ⟨3, "d1", "y"⟩, ⟨7, "d3", "z"⟩], 1) ∧
    (∃ tr, (stream_new_transactions ⟨some "tokc9", ⟨none, none⟩⟩
        [Except.ok ⟨[⟨5, "d2", "x"⟩, ⟨3, "d1", "y"⟩, ⟨7, "d3", "z"⟩], none⟩]).1 =
          Except.ok tr ∧
      (yieldsOf tr).Pairwise (fun a b => keyLt a b = true)) :=
  ⟨by decide, by decide,
    c9_yields_strictly_sorted ⟨some "tokc9", ⟨none, none⟩⟩
      [Except.ok ⟨[⟨5, "d2", "x"⟩, ⟨3, "d1", "y"⟩, ⟨7, "d3", "z"⟩], none⟩]
      [⟨5, "d2", "x"⟩, ⟨3, "d1", "y"⟩, ⟨7, "d3", "z"⟩] 1 (by decide) (by decide)⟩

/-- C7: idempotent keyed upserts.  For any table whose ids are unique and
any batch of payloads with unique ids (each payload a well-formed dict),
both `upsert_transactions` and `upsert_accounts` (i) keep row ids unique —
no duplicate rows by identifier are ever created, (ii) are idempotent —
re-applying the same batch leaves the stored state unchanged, and (iii)
leave, for each payload, exactly one row holding the payload's column
values. -/
theorem c7_idempotent_upserts (tbl : Table) (batch : List Payload)
    (htbl : (tbl.map Prod.fst).Nodup)
    (hids : (batch.map Payload.id).Nodup)
    (hfields : ∀ p ∈ batch, (p.fields.map Prod.fst).Nodup) :
    (((upsert_transactions tbl batch).map Prod.fst).Nodup ∧
      upsert_transactions (upsert_transactions tbl batch) batch =
        upsert_transactions tbl batch ∧
      ∀ p ∈ batch, ∃ r, lookupTable (upsert_transactions tbl batch) p.id = some r ∧
        ∀ kv ∈ colRestrict transactionColumns p.fields, lookupField r kv.1 = some kv.2) ∧
    (((upsert_accounts tbl batch).map Prod.fst).Nodup ∧
      upsert_accounts (upsert_accounts tbl batch) batch = upsert_accounts tbl batch ∧
      ∀ p ∈ batch, ∃ r, lookupTable (upsert_accounts tbl batch) p.id = some r ∧
        ∀ kv ∈ colRestrict accountColumns p.fields, lookupField r kv.1 = some kv.2) :=
  ⟨⟨upsertMany_keys_nodup transactionColumns batch tbl htbl,
    upsertMany_idem transactionColumns batch tbl hids hfields,
    upsertMany_final_values transactionColumns batch tbl hids hfields⟩,
   ⟨upsertMany_keys_nodup accountColumns batch tbl htbl,
    upsertMany_idem accountColumns batch tbl hids hfields,
    upsertMany_final_values accountColumns batch tbl hids hfields⟩⟩

/-- Witness for `c7_idempotent_upserts` at a concrete payload. -/
theorem c7_witness :
    (([] : Table).map Prod.fst).Nodup ∧
    (([⟨1, [("id", "1"), ("date", "2020-01-01")]⟩] : List Payload).map Payload.id).Nodup ∧
    (∀ p ∈ ([⟨1, [("id", "1"), ("date", "2020-01-01")]⟩] : List Payload),
      (p.fields.map Prod.fst).Nodup) ∧
    ((((upsert_transactions [] [⟨1, [("id", "1"), ("date", "2020-01-01")]⟩]).map
        Prod.fst).Nodup ∧
      upsert_transactions (upsert_transactions [] [⟨1, [("id", "1"), ("date", "2020-01-01")]⟩])
          [⟨1, [("id", "1"), ("date", "2020-01-01")]⟩] =
        upsert_transactions [] [⟨1, [("id", "1"), ("date", "2020-01-01")]⟩] ∧
      ∀ p ∈ ([⟨1, [("id", "1"), ("date", "2020-01-01")]⟩] : List Payload), ∃ r,
        lookupTable (upsert_transactions [] [⟨1, [("id", "1"), ("date", "2020-01-01")]⟩])
            p.id = some r ∧
        ∀ kv ∈ colRestrict transactionColumns p.fields, lookupField r kv.1 = some kv.2) ∧
     (((upsert_accounts [] [⟨1, [("id", "1"), ("date", "2020-01-01")]⟩]).map
        Prod.fst).Nodup ∧
      upsert_accounts (upsert_accounts [] [⟨1, [("id", "1"), ("date", "2020-01-01")]⟩])
          [⟨1, [("id", "1"), ("date", "2020-01-01")]⟩] =
        upsert_accounts [] [⟨1, [("id", "1"), ("date", "2020-01-01")]⟩] ∧
      ∀ p ∈ ([⟨1, [("id", "1"), ("date", "2020-01-01")]⟩] : List Payload), ∃ r,
        lookupTable (upsert_accounts [] [⟨1, [("id", "1"), ("date", "2020-01-01")]⟩])
            p.id = some r ∧
        ∀ kv ∈ colRestrict accountColumns p.fields, lookupField r kv.1 = some kv.2)) :=
  ⟨by decide, by decide, by decide,
    c7_idempotent_upserts [] [⟨1, [("id", "1"), ("date", "2020-01-01")]⟩]
      (by decide) (by decide) (by decide)⟩

/-- C10: unauthenticated atomicity.  When `auth_token` is falsy (`None`
or empty), each of `get_temp_code`, `list_accounts`, `activate_account`,
`list_transactions` and `stream_new_transactions` raises `RuntimeError`
having issued no network request; the error return carries no cache-write
events, so the checkpoint cache (and all client state) is untouched. -/
theorem c10_unauthenticated_atomic {α β : Type} (st : ClientState)
    (h : truthyS st.authToken = false)
    (respCode : Except HttpFailure (Option String)) (allAccounts : Bool)
    (respAcc : Except HttpFailure α) (accountId : Nat) (respAct : Except HttpFailure β)
    (oracle : List (Except HttpFailure α)) (pages : List (Except HttpFailure PageData)) :
    get_temp_code st respCode = (Except.error PyError.runtimeNotAuthenticated, []) ∧
    list_accounts st allAccounts respAcc = (Except.error PyError.runtimeNotAuthenticated, []) ∧
    activate_account st accountId respAct =
      (Except.error PyError.runtimeNotAuthenticated, []) ∧
    list_transactions st oracle = (Except.error PyError.runtimeNotAuthenticated, 0) ∧
    stream_new_transactions st pages = (Except.error PyError.runtimeNotAuthenticated, 0) := by
  have he : ensure_authenticated st = Except.error PyError.runtimeNotAuthenticated := by
    rw [ensure_authenticated, if_neg (by simp [h])]
  refine ⟨?_, ?_, ?_, ?_, ?_⟩ <;>
    simp [get_temp_code, list_accounts, activate_account, list_transactions,
      stream_new_transactions, he]

/-- Witness for `c10_unauthenticated_atomic` at a concrete unauthenticated
client. -/
theorem c10_witness :
    truthyS (⟨none, ⟨some 4, some "d4"⟩⟩ : ClientState).authToken = false ∧
    get_temp_code ⟨none, ⟨some 4, some "d4"⟩⟩ (Except.ok (some "code")) =
      (Except.error PyError.runtimeNotAuthenticated, []) ∧
    list_accounts ⟨none, ⟨some 4, some "d4"⟩⟩ true (Except.ok (3 : Nat)) =
      (Except.error PyError.runtimeNotAuthenticated, []) ∧
    activate_account ⟨none, ⟨some 4, some "d4"⟩⟩ 9 (Except.ok (0 : Nat)) =
      (Except.error PyError.runtimeNotAuthenticated, []) ∧
    list_transactions ⟨none, ⟨some 4, some "d4"⟩⟩ ([Except.ok 3] : List (Except HttpFailure Nat)) =
      (Except.error PyError.runtimeNotAuthenticated, 0) ∧
    stream_new_transactions ⟨none, ⟨some 4, some "d4"⟩⟩ [] =
      (Except.error PyError.runtimeNotAuthenticated, 0) := by
  refine ⟨by decide, ?rest⟩
  exact (c10_unauthenticated_atomic ⟨none, ⟨some 4, some "d4"⟩⟩ (by decide)
    (Except.ok (some "code")) true (Except.ok (3 : Nat)) 9 (Except.ok (0 : Nat))
    [Except.ok 3] []).imp id (fun x => x)
